import Mathlib

/-!
Verification development for the nutsdb embedded key-value store core.

The repository sources available are the DB test suite (`db_test.go`), the
B+Tree iterator (`iterator.go`) and `options.go`.  Components whose code is
not present (transaction engine, segmented log, directory lock, B+Tree
search) are modelled from the specification; every such definition carries a
doc comment starting with "Modelled from the spec:".  The iterator functions
`SetNext` and `Seek` are translated directly from `iterator.go`.
-/

namespace NutsDB

/-- Byte strings are modelled as lists of naturals (each entry a byte value). -/
abbrev Bytes := List Nat

/-- Translation of `bytes.Compare` (used by `compare` in the iterator):
lexicographic three-way comparison returning -1, 0 or 1. -/
def compareBytes : Bytes → Bytes → Int
  | [], [] => 0
  | [], _ :: _ => -1
  | _ :: _, [] => 1
  | a :: as, b :: bs =>
    if a < b then -1 else if b < a then 1 else compareBytes as bs

/-- Error values of the store (spec section 7, error taxonomy). -/
inductive Err where
  | ErrBucketNotFound
  | ErrKeyNotFound
  | ErrDirLocked
  | ErrDirUnlocked
  | ErrDBClosed
deriving DecidableEq, Repr

/-- `Persistent` ttl constant: 0 means the entry never expires. -/
def Persistent : Nat := 0

/-! ## Key-value store model (claims C1, C4)

Modelled from the spec: the transaction engine is not among the available
sources (only its tests are), so the committed effect of `put`, `get` and
`delete` on the per-bucket index (spec sections 4.3 and 4.5, property P1,
scenarios 1 and 2) is modelled directly.  Buckets are a map from bucket name
to a per-bucket key map; a `get`/`delete` on an absent bucket fails with
`ErrBucketNotFound`, on a present bucket with an absent key with
`ErrKeyNotFound`. -/

/-- Modelled from the spec: per-bucket key map, key to (value, ttl). -/
abbrev BucketData := Bytes → Option (Bytes × Nat)

/-- Modelled from the spec: the in-memory store state, bucket name to bucket map. -/
structure KVStore where
  buckets : String → Option BucketData

/-- The fresh (empty) store: no bucket has ever been written. -/
def emptyKV : KVStore := ⟨fun _ => none⟩

/-- Modelled from the spec: committed `put(bucket, key, value, ttl)`.  The first
put into a bucket creates it. -/
def KVStore.put (db : KVStore) (bucket : String) (key value : Bytes) (ttl : Nat) : KVStore :=
  let bd := (db.buckets bucket).getD (fun _ => none)
  ⟨fun b => if b = bucket then
      some (fun k => if k = key then some (value, ttl) else bd k)
    else db.buckets b⟩

/-- Modelled from the spec: `get(bucket, key)` in a `View` transaction. -/
def KVStore.get (db : KVStore) (bucket : String) (key : Bytes) : Except Err Bytes :=
  match db.buckets bucket with
  | none => .error Err.ErrBucketNotFound
  | some bd =>
    match bd key with
    | none => .error Err.ErrKeyNotFound
    | some (v, _) => .ok v

/-- Modelled from the spec: committed `delete(bucket, key)`; a tombstone shadows
the prior value, so the key becomes absent from the bucket. -/
def KVStore.delete (db : KVStore) (bucket : String) (key : Bytes) : Except Err KVStore :=
  match db.buckets bucket with
  | none => .error Err.ErrBucketNotFound
  | some bd =>
    match bd key with
    | none => .error Err.ErrKeyNotFound
    | some _ =>
      .ok ⟨fun b => if b = bucket then
          some (fun k => if k = key then none else bd k)
        else db.buckets b⟩

/-- A mutation submitted inside an `Update` transaction. -/
inductive TxOp where
  | put (bucket : String) (key value : Bytes) (ttl : Nat)
  | del (bucket : String) (key : Bytes)

/-- Effect of a single transaction operation. -/
def applyTxOp (db : KVStore) : TxOp → Except Err KVStore
  | .put b k v ttl => .ok (db.put b k v ttl)
  | .del b k => db.delete b k

/-- Modelled from the spec: an `Update` transaction commits a batch of
mutations; any failing operation aborts the transaction (the error
propagates, no partial state is returned). -/
def KVStore.update (db : KVStore) (ops : List TxOp) : Except Err KVStore :=
  ops.foldlM applyTxOp db

/-- Modelled from the spec: a `View` transaction reads the committed state. -/
def KVStore.viewGet (db : KVStore) (bucket : String) (key : Bytes) : Except Err Bytes :=
  db.get bucket key

/-! ## Segmented append log (claim C2)

Modelled from the spec: the file manager is not among the available sources.
Spec section 4.2: `append(bytes) -> (file_id, offset)` on the active segment;
if the append would exceed `segment_size`, seal the current segment and open
a new one with `file_id + 1` before appending. -/

/-- State of the active segment: its id and current write offset. -/
structure SegState where
  fileID : Nat
  off : Nat
deriving DecidableEq, Repr

/-- Modelled from the spec: append `n` bytes to the active segment, rolling
over to a fresh segment (`file_id + 1`, offset 0) when the append would
exceed `segSize`.  Returns the new state and the `(file_id, data_pos)`
pointer of the appended record. -/
def appendSeg (segSize : Nat) (st : SegState) (n : Nat) : SegState × (Nat × Nat) :=
  if segSize < st.off + n then
    (⟨st.fileID + 1, n⟩, (st.fileID + 1, 0))
  else
    (⟨st.fileID, st.off + n⟩, (st.fileID, st.off))

/-- Modelled from the spec: the encoded record is a fixed-size header followed
by bucket, key and value bytes (spec section 6, record wire format).  The
spec declares the exact field widths a compatibility choice; the header is
fixed at 42 bytes, the width under which the repository's own test
`TestDB_GetRecordFromKey` observes offset 58 for a record with 16 payload
bytes (bucket "bucket", key "hello", value "world"). -/
def entryHeaderSize : Nat := 42

/-- Total encoded size of one record. -/
def encodedEntrySize (bucket key value : Bytes) : Nat :=
  entryHeaderSize + bucket.length + key.length + value.length

/-- A store reduced to its segment state and key directory, enough to follow
`put` and `getRecordFromKey` at the record-pointer level. -/
structure MiniDB where
  seg : SegState
  idx : List ((Bytes × Bytes) × (Nat × Nat))
deriving DecidableEq, Repr

/-- The store as opened on an empty directory. -/
def emptyMiniDB : MiniDB := ⟨⟨0, 0⟩, []⟩

/-- Update the record pointer stored for a (bucket, key) pair. -/
def updIdx (idx : List ((Bytes × Bytes) × (Nat × Nat))) (bk : Bytes × Bytes)
    (ptr : Nat × Nat) : List ((Bytes × Bytes) × (Nat × Nat)) :=
  match idx with
  | [] => [(bk, ptr)]
  | (bk', p') :: rest =>
    if bk' = bk then (bk, ptr) :: rest else (bk', p') :: updIdx rest bk ptr

/-- Modelled from the spec: a committed `put` encodes the record, appends it
to the active segment (rolling over when needed) and points the index entry
for (bucket, key) at the appended record. -/
def putRecordM (segSize : Nat) (db : MiniDB) (bucket key value : Bytes) : MiniDB :=
  let n := encodedEntrySize bucket key value
  let r := appendSeg segSize db.seg n
  ⟨r.1, updIdx db.idx (bucket, key) r.2⟩

/-- Modelled from the spec: `getRecordFromKey` looks the (bucket, key) pair up
in the index and returns the stored record pointer. -/
def getRecordPointerM (db : MiniDB) (bucket key : Bytes) : Option (Nat × Nat) :=
  (db.idx.find? (fun e => e.1 = (bucket, key))).map (·.2)

/-- Iterated committed puts of the same record. -/
def putRecordNTimes (segSize : Nat) (db : MiniDB) (bucket key value : Bytes) : Nat → MiniDB
  | 0 => db
  | n + 1 => putRecordNTimes segSize (putRecordM segSize db bucket key value) bucket key value n

/-- The bytes of the bucket name "bucket". -/
def bucketBytes : Bytes := [98, 117, 99, 107, 101, 116]

/-- The bytes of the key "hello". -/
def helloBytes : Bytes := [104, 101, 108, 108, 111]

/-- The bytes of the value "world". -/
def worldBytes : Bytes := [119, 111, 114, 108, 100]

/-! ## Directory lock (claim C3)

Modelled from the spec: the flock implementation is not among the available
sources.  Spec section 4.6: on `open`, acquire an exclusive lock on the data
directory, failing with `DirLocked` if already held; on `close`, release it;
if the lock was manually released before `close`, `close` fails with
`DirUnlocked`. -/

/-- A handle on an opened store: its directory and whether its directory lock
is still held. -/
structure FlockHandle where
  dir : String
  locked : Bool
deriving DecidableEq, Repr

/-- Modelled from the spec: `open` acquires the exclusive directory lock,
failing with `DirLocked` when some open store already holds it.  `held` is
the set of directories currently locked (by any store instance). -/
def openDB (held : List String) (dir : String) : Except Err (FlockHandle × List String) :=
  if dir ∈ held then .error Err.ErrDirLocked
  else .ok (⟨dir, true⟩, dir :: held)

/-- Modelled from the spec: `close` releases the directory lock; if the lock
was already released manually the close fails with `DirUnlocked`. -/
def closeDB (held : List String) (h : FlockHandle) : Except Err (List String) :=
  if h.locked then .ok (held.erase h.dir) else .error Err.ErrDirUnlocked

/-- Modelled from the spec: manually releasing the directory lock outside of
`close` (the test calls `db.flock.Unlock()`). -/
def manualUnlockFlock (held : List String) (h : FlockHandle) : FlockHandle × List String :=
  ({ h with locked := false }, held.erase h.dir)

/-! ## Commit buffer (claim C5)

Modelled from the spec: the commit path is not among the available sources.
Spec section 4.5: the commit buffer is pre-allocated to `commit_buffer_size`;
a transaction whose encoded size fits is staged in the buffer and the buffer
length is reset to zero after commit (capacity retained); a larger
transaction bypasses the buffer and streams directly to the segment. -/

/-- The reusable commit buffer: its current length and its capacity. -/
structure CommitBuffer where
  len : Nat
  cap : Nat
deriving DecidableEq, Repr

/-- Modelled from the spec: commit one transaction of encoded size `txSize`.
Returns the buffer after commit, the segment log with the transaction bytes
appended, and whether the commit buffer was used (false = bypassed). -/
def commitTx (buf : CommitBuffer) (segLog : List Nat) (txSize : Nat) :
    CommitBuffer × List Nat × Bool :=
  if txSize ≤ buf.cap then
    let bufFilled : CommitBuffer := { buf with len := txSize }
    ({ bufFilled with len := 0 }, segLog ++ [txSize], true)
  else
    (buf, segLog ++ [txSize], false)

/-! ## Error handler (claim C6)

Modelled from the spec: the transaction runner is not among the available
sources.  Spec section 5 (cancellation) and P9: a closure returning a
non-nil error aborts the transaction (rollback for `Update`, no effect for
`View`) and invokes the configured error handler exactly once. -/

/-- Modelled from the spec: run an `Update` closure against the store.
Returns the resulting store (rolled back on closure error), the closure's
error, and how many times the configured error handler was invoked. -/
def runUpdateTx (db : KVStore) (handlerConfigured : Bool)
    (closure : KVStore → Except String KVStore) : KVStore × Option String × Nat :=
  match closure db with
  | .ok db' => (db', none, 0)
  | .error e => (db, some e, if handlerConfigured then 1 else 0)

/-- Modelled from the spec: run a `View` closure against the store.  Returns
the closure's error and how many times the error handler was invoked. -/
def runViewTx (db : KVStore) (handlerConfigured : Bool)
    (closure : KVStore → Except String PUnit) : Option String × Nat :=
  match closure db with
  | .ok _ => (none, 0)
  | .error e => (some e, if handlerConfigured then 1 else 0)

/-! ## Entry index mode constants (claim C9) -/

/-- The `EntryIdxMode` constants that `src/options.go` actually declares
(`HintAndRAMIdxMode EntryIdxMode = iota; HintAndMemoryMapIdxMode`). -/
def optionsGoEntryIdxModeConstants : List String :=
  ["HintAndRAMIdxMode", "HintAndMemoryMapIdxMode"]

/-- The `EntryIdxMode` constants the iterator source compares the configured
mode against (`iterator.go` lines 35-36 and 58 and 82). -/
def iteratorEntryIdxModeReferences : List String :=
  ["HintKeyAndRAMIdxMode", "HintKeyValAndRAMIdxMode"]

/-- The `EntryIdxMode` constants the repository's own tests assign to
`Options.EntryIdxMode` (`TestDB_BPTSparse`, `TestDB_GetRecordFromKey`). -/
def testEntryIdxModeReferences : List String :=
  ["HintBPTSparseIdxMode", "HintKeyAndRAMIdxMode"]

/-- The three entry index modes named by the specification
(`hint_key_and_ram`, `hint_key_val_and_ram`, `hint_bpt_sparse`). -/
def claimedEntryIdxModes : List String :=
  ["HintKeyAndRAMIdxMode", "HintKeyValAndRAMIdxMode", "HintBPTSparseIdxMode"]

/-! ## B+Tree iterator (claims C7, C8, C10)

`Iterator.SetNext` and `Iterator.Seek` are translated from `iterator.go`.
The supporting data (leaf nodes, records, the B+Tree's `FindLeaf` and
`FirstKey`) come from `bptree.go` / `record.go`, which are not among the
available sources; they are modelled from the spec (sections 3 and 4.3) and
carry doc comments saying so.

A leaf `Node` holds `KeysNum` records (`pointers[0..KeysNum-1]`, each a
`*Record` whose hint carries the key) and its rightward neighbour in
`pointers[order-1]`.  The Go pointer to a node in the rightward-linked leaf
chain is modelled as the suffix of the chain starting at that node: `[]`
models the nil `*Node`. -/

/-- The entry index mode constants as used by the iterator and the tests
(their declaration is missing from the available options.go, which is a
stale version; the names follow the spec's three modes). -/
inductive EntryIdxMode where
  | HintKeyAndRAMIdxMode
  | HintKeyValAndRAMIdxMode
  | HintBPTSparseIdxMode
deriving DecidableEq, Repr

/-- A record as seen by the iterator: the hint key, the flag and expiry state
(`record.H.Meta.Flag`, `record.IsExpired()`), the record pointer
(`record.H.FileID`, `record.H.DataPos`) and the cached entry (`record.E`). -/
structure Record where
  key : Bytes
  deleted : Bool
  expired : Bool
  fileID : Nat
  dataPos : Nat
  value : Bytes
deriving DecidableEq, Repr

/-- Translation of `record.H.Meta.Flag == DataDeleteFlag || record.IsExpired()`
(iterator.go line 54). -/
def Record.dead (r : Record) : Bool := r.deleted || r.expired

/-- A leaf node: its record pointers in key order (`KeysNum = length`). -/
abbrev Leaf := List Record

/-- All records of a leaf chain in chain order. -/
def chainRecords (c : List Leaf) : List Record := c.flatten

/-- Number of records in a leaf chain. -/
def chainSize (c : List Leaf) : Nat := (chainRecords c).length

/-- The iterator state: `current` is the Go `it.current` (a suffix of the
leaf chain, `[]` for nil), `i` is `it.i` (a Go int, -1 marks exhaustion) and
`entry` is `it.entry`. -/
structure IterState where
  current : List Leaf
  i : Int
  entry : Option Bytes
deriving DecidableEq, Repr

/-- `newIterator`: zero-valued cursor (nil node, index 0, no entry). -/
def newIterState : IterState := ⟨[], 0, none⟩

/-- Errors `SetNext` can return. -/
inductive GoErr where
  | ErrTxClosed
  | ErrReadFailed
deriving DecidableEq, Repr

/-- Go list indexing with an int index: out-of-range or negative access has
no value (it panics in Go). -/
def listGetI (l : List Record) (i : Int) : Option Record :=
  if 0 ≤ i then l.get? i.toNat else none

/-- Modelled from the spec: the B+Tree per-bucket index, reduced to its
rightward-linked leaf chain (spec section 3: leaves are linked in ascending
key order). -/
structure BPTree where
  leaves : List Leaf
deriving DecidableEq, Repr

/-- Modelled from the spec: `FindLeaf(key)` descends to the leaf whose key
range covers `key` (`seek(key) -> cursor pointing at the smallest key ≥
input`, spec section 4.3): the first leaf whose last key is ≥ `key`, the
last leaf when `key` exceeds every stored key, and nil (`[]`) on an empty
tree.  The result is the chain suffix starting at that leaf. -/
def findLeafChain : List Leaf → Bytes → List Leaf
  | [], _ => []
  | [l], _ => [l]
  | l :: l2 :: rest, key =>
    match l.getLast? with
    | none => findLeafChain (l2 :: rest) key
    | some r =>
      if 0 ≤ compareBytes r.key key then l :: l2 :: rest
      else findLeafChain (l2 :: rest) key

/-- The tree's `FindLeaf`. -/
def BPTree.FindLeaf (t : BPTree) (key : Bytes) : List Leaf :=
  findLeafChain t.leaves key

/-- Modelled from the spec: the tree's `FirstKey`, the smallest stored key
(the first record of the first leaf). -/
def BPTree.FirstKey (t : BPTree) : Bytes :=
  match chainRecords t.leaves with
  | [] => []
  | r :: _ => r.key

/-- Translation of the `for` loop of `Iterator.Seek` (iterator.go line 98):
`for it.i = 0; it.i < it.current.KeysNum && compare(it.current.Keys[it.i], key) < 0; { it.i++ }`,
counting the leading records whose key is smaller than `key`. -/
def seekLoopIdx (key : Bytes) : List Record → Nat
  | [] => 0
  | r :: rs => if compareBytes r.key key < 0 then seekLoopIdx key rs + 1 else 0

/-- Translation of `Iterator.Seek` (iterator.go lines 92-101).  `FindLeaf`
is assigned to `it.current`; when it is nil the code stores `it.i = -1` but
then falls through into the `for` loop, whose init resets `it.i` to 0 and
whose guard reads `it.current.KeysNum` from the nil node — a nil-pointer
dereference, modelled as `none` (Go panics). -/
def SeekF (t : BPTree) (st : IterState) (key : Bytes) : Option IterState :=
  match t.FindLeaf key with
  | [] => none
  | leaf :: rest => some ⟨leaf :: rest, (seekLoopIdx key leaf : Nat), st.entry⟩

/-- Translation of the body of `Iterator.SetNext` from line 42 on
(iterator.go lines 42-87): leaf advance, record fetch, tombstone/expiry skip
(the recursive `it.SetNext()` call re-enters here because after a skip the
checks of lines 27-40 are all no-ops: the transaction is still open,
`it.i ≥ 1` and `it.current ≠ nil`), and the per-mode entry load.  `files`
models `fm.getDataFile` + `df.ReadAt` (their code is not among the available
sources): it maps a record pointer to the entry read from disk, `none`
modelling a read error.  The fuel argument only bounds the tombstone-skip
recursion; callers pass `chainSize st.current + 1`, which the lemmas show is
never exhausted. -/
def setNextCoreFuel (mode : EntryIdxMode) (files : Nat → Nat → Option Bytes) :
    Nat → IterState → Option ((Bool × Option GoErr) × IterState)
  | 0, _ => none
  | fuel + 1, st =>
    match st.current with
    | [] => none
    | leaf :: rest =>
      let moved := (leaf.length : Int) ≤ st.i
      let cur := if moved then rest else leaf :: rest
      let j : Int := if moved then 0 else st.i
      match cur with
      | [] => some ((false, none), ⟨[], st.i, st.entry⟩)
      | l2 :: r2 =>
        match listGetI l2 j with
        | none => none
        | some record =>
          let st1 : IterState := ⟨l2 :: r2, j + 1, st.entry⟩
          if record.dead then
            setNextCoreFuel mode files fuel st1
          else if mode = EntryIdxMode.HintKeyAndRAMIdxMode then
            match files record.fileID record.dataPos with
            | some item => some ((true, none), { st1 with entry := some item })
            | none => some ((false, some GoErr.ErrReadFailed), st1)
          else if mode = EntryIdxMode.HintKeyValAndRAMIdxMode then
            some ((true, none), { st1 with entry := some record.value })
          else
            some ((false, none), st1)

/-- Translation of `Iterator.SetNext` (iterator.go lines 26-88): the
closed-transaction check, the exhaustion check (`it.i == -1`), the initial
positioning (`it.current == nil` in a RAM index mode seeks to the bucket
index's `FirstKey`; a missing bucket leaves `it.current` nil, so line 42
dereferences nil — `none`), then the body. -/
def SetNextF (txClosed : Bool) (mode : EntryIdxMode) (files : Nat → Nat → Option Bytes)
    (bpt : Option BPTree) (st : IterState) : Option ((Bool × Option GoErr) × IterState) :=
  if txClosed then some ((false, some GoErr.ErrTxClosed), st)
  else if st.i = -1 then some ((false, none), st)
  else
    let seeked : Option IterState :=
      if st.current = [] ∧ (mode = EntryIdxMode.HintKeyAndRAMIdxMode ∨
          mode = EntryIdxMode.HintKeyValAndRAMIdxMode) then
        match bpt with
        | some t => SeekF t st t.FirstKey
        | none => some st
      else some st
    match seeked with
    | none => none
    | some st1 => setNextCoreFuel mode files (chainSize st1.current + 1) st1

/-- The client loop around `SetNext`: collect the entries yielded by
successive successful calls until `SetNext` returns `(false, nil)`.
`none` when a call errors, panics, or the fuel runs out. -/
def runIter (txClosed : Bool) (mode : EntryIdxMode) (files : Nat → Nat → Option Bytes)
    (bpt : Option BPTree) : Nat → IterState → Option (List Bytes)
  | 0, _ => none
  | fuel + 1, st =>
    match SetNextF txClosed mode files bpt st with
    | none => none
    | some ((false, none), _) => some []
    | some ((false, some _), _) => none
    | some ((true, _), st1) =>
      match st1.entry with
      | none => none
      | some e =>
        match runIter txClosed mode files bpt fuel st1 with
        | none => none
        | some es => some (e :: es)

/-- Full iteration over a bucket's index from a fresh iterator. -/
def iterate (t : BPTree) (mode : EntryIdxMode) (files : Nat → Nat → Option Bytes) :
    Option (List Bytes) :=
  runIter false mode files (some t) (chainSize t.leaves + 1) newIterState

/-- The records the cursor has not yet consumed. -/
def remainingRecords (st : IterState) : List Record :=
  match st.current with
  | [] => []
  | leaf :: rest => leaf.drop st.i.toNat ++ chainRecords rest

/-- The records of a chain that are neither delete-flagged nor expired. -/
def liveRecords (c : List Leaf) : List Record :=
  (chainRecords c).filter (fun r => !r.dead)

/-- Strict ascending key order between records. -/
def keyLt (r s : Record) : Prop := compareBytes r.key s.key < 0

instance : DecidableRel keyLt :=
  fun r s => inferInstanceAs (Decidable (compareBytes r.key s.key < 0))

/-- Well-formedness of a bucket's leaf chain, from the spec's B+Tree
invariants: every leaf is non-empty (all nodes at least half full) and the
records of the chain are in strictly ascending key order. -/
def WFChain (c : List Leaf) : Prop :=
  (∀ l ∈ c, l ≠ []) ∧ List.Pairwise keyLt (chainRecords c)

instance (c : List Leaf) : Decidable (WFChain c) := by
  unfold WFChain; infer_instance

/-- First not-yet-consumed live record and the records after it: what one
`SetNext` call resolves to. -/
def skipToLive : List Record → Option (Record × List Record)
  | [] => none
  | r :: rs => if r.dead then skipToLive rs else some (r, rs)

/-- The fuel bound used through the iterator lemmas. -/
def measureIter (st : IterState) : Nat :=
  match st.current with
  | [] => 0
  | leaf :: rest => (leaf.length - min st.i.toNat leaf.length) + chainSize rest

/-- A live record with key 1 (concrete witness data). -/
def sampleRecord1 : Record := ⟨[1], false, false, 0, 0, [10]⟩

/-- A delete-flagged record with key 2 (concrete witness data). -/
def sampleRecord2 : Record := ⟨[2], true, false, 0, 58, [20]⟩

/-- A live record with key 3 (concrete witness data). -/
def sampleRecord3 : Record := ⟨[3], false, false, 1, 0, [30]⟩

/-- An expired record with key 4 (concrete witness data). -/
def sampleRecord4 : Record := ⟨[4], false, true, 1, 58, [40]⟩

/-- A two-leaf bucket index holding the four sample records. -/
def sampleTree : BPTree :=
  ⟨[[sampleRecord1, sampleRecord2], [sampleRecord3, sampleRecord4]]⟩

end NutsDB

namespace NutsDB

theorem compareBytes_self (a : Bytes) : compareBytes a a = 0 := by
  induction a with
  | nil => rfl
  | cons x xs ih => simp [compareBytes, ih]

theorem compareBytes_swap (a b : Bytes) : compareBytes a b = -(compareBytes b a) := by
  induction a generalizing b with
  | nil => cases b <;> rfl
  | cons x xs ih =>
    cases b with
    | nil => rfl
    | cons y ys =>
      by_cases hxy : x < y
      · have hyx : ¬ y < x := by omega
        simp [compareBytes, hxy, hyx]
      · by_cases hyx : y < x
        · simp [compareBytes, hxy, hyx]
        · simp [compareBytes, hxy, hyx, ih]

theorem compareBytes_lt_trans {a b c : Bytes}
    (hab : compareBytes a b < 0) (hbc : compareBytes b c < 0) :
    compareBytes a c < 0 := by
  induction a generalizing b c with
  | nil =>
    cases b with
    | nil => simp [compareBytes] at hab
    | cons y ys =>
      cases c with
      | nil => simp [compareBytes] at hbc
      | cons z zs => simp [compareBytes]
  | cons x xs ih =>
    cases b with
    | nil => simp [compareBytes] at hab
    | cons y ys =>
      cases c with
      | nil => simp [compareBytes] at hbc
      | cons z zs =>
        simp only [compareBytes] at hab hbc ⊢
        by_cases hxy : x < y
        · by_cases hyz : y < z
          · have : x < z := by omega
            simp [this]
          · by_cases hzy : z < y
            · simp [hyz, hzy] at hbc
            · have : x < z := by omega
              simp [this]
        · by_cases hyx : y < x
          · simp [hxy, hyx] at hab
          · have hxeq : x = y := by omega
            subst hxeq
            by_cases hyz : x < z
            · simp [hyz]
            · by_cases hzy : z < x
              · simp [hyz, hzy] at hbc
              · simp [hxy, hyx] at hab
                simp [hyz, hzy] at hbc
                simp [hyz, hzy, ih hab hbc]

end NutsDB

namespace NutsDB

/-! ## Theorems for claims C1 through C6 and C9 -/

/-- C1: for every store, bucket, key and values with ttl = persistent, a
committed `Update` that puts (bucket, key, value) followed by a `View` `get`
returns that value; a second committed put of a different value makes `get`
return the newer value; and after a committed `delete`, `get` fails with
`KeyNotFound`. -/
theorem roundtrip_put_get_delete (db : KVStore) (b : String) (k v v' : Bytes) :
    ∃ db1 db2 db3 : KVStore,
      db.update [TxOp.put b k v Persistent] = .ok db1 ∧
      db1.viewGet b k = .ok v ∧
      db1.update [TxOp.put b k v' Persistent] = .ok db2 ∧
      db2.viewGet b k = .ok v' ∧
      db2.update [TxOp.del b k] = .ok db3 ∧
      db3.viewGet b k = .error Err.ErrKeyNotFound := by
  refine ⟨db.put b k v Persistent, (db.put b k v Persistent).put b k v' Persistent,
    ⟨fun b1 => if b1 = b then
        some (fun k1 => if k1 = k then none else
          (if k1 = k then some (v', Persistent) else
            (if k1 = k then some (v, Persistent) else ((db.buckets b).getD (fun _ => none)) k1)))
      else (((db.put b k v Persistent).put b k v' Persistent).buckets b1)⟩,
    rfl, ?_, rfl, ?_, ?_, ?_⟩
  · simp [KVStore.viewGet, KVStore.get, KVStore.put]
  · simp [KVStore.viewGet, KVStore.get, KVStore.put]
  · show (((db.put b k v Persistent).put b k v' Persistent).delete b k >>=
        fun s => List.foldlM applyTxOp s []) = _
    simp [KVStore.delete, KVStore.put]
  · simp [KVStore.viewGet, KVStore.get, KVStore.put]

/-- C2: with segment_size = 120 bytes, ten committed puts of the record
(bucket "bucket", key "hello", value "world") into an initially empty store
leave the record pointer for that key at file_id 4 and data_pos 58 (five
segments 0..4 were created by rollover; 58 is the byte offset of the last
record in segment 4). -/
theorem segment_rollover_pointer :
    getRecordPointerM (putRecordNTimes 120 emptyMiniDB bucketBytes helloBytes worldBytes 10)
        bucketBytes helloBytes = some (4, 58) ∧
      (putRecordNTimes 120 emptyMiniDB bucketBytes helloBytes worldBytes 10).seg.fileID = 4 ∧
      encodedEntrySize bucketBytes helloBytes worldBytes = 58 := by
  decide

/-- C3: `open` acquires an exclusive per-directory lock: of two opens of the
same directory the first succeeds and the second fails with `DirLocked`;
after the holder closes, a fresh open succeeds; and a close after the lock
was manually released fails with `DirUnlocked`. -/
theorem flock_exclusive (held : List String) (dir : String) (h : dir ∉ held) :
    openDB held dir = .ok (⟨dir, true⟩, dir :: held) ∧
      openDB (dir :: held) dir = .error Err.ErrDirLocked ∧
      closeDB (dir :: held) ⟨dir, true⟩ = .ok held ∧
      openDB held dir = .ok (⟨dir, true⟩, dir :: held) ∧
      closeDB ((manualUnlockFlock (dir :: held) ⟨dir, true⟩).2)
          ((manualUnlockFlock (dir :: held) ⟨dir, true⟩).1) = .error Err.ErrDirUnlocked := by
  refine ⟨?_, ?_, ?_, ?_, ?_⟩
  · simp [openDB, h]
  · simp [openDB]
  · simp [closeDB]
  · simp [openDB, h]
  · simp [closeDB, manualUnlockFlock]

/-- Witness for C3 at a concrete directory and empty lock table. -/
theorem flock_exclusive_witness :
    "/tmp/nutsdb-test" ∉ ([] : List String) ∧
      (openDB [] "/tmp/nutsdb-test" = .ok (⟨"/tmp/nutsdb-test", true⟩, ["/tmp/nutsdb-test"]) ∧
        openDB ["/tmp/nutsdb-test"] "/tmp/nutsdb-test" = .error Err.ErrDirLocked ∧
        closeDB ["/tmp/nutsdb-test"] ⟨"/tmp/nutsdb-test", true⟩ = .ok [] ∧
        openDB [] "/tmp/nutsdb-test" = .ok (⟨"/tmp/nutsdb-test", true⟩, ["/tmp/nutsdb-test"]) ∧
        closeDB ((manualUnlockFlock ["/tmp/nutsdb-test"] ⟨"/tmp/nutsdb-test", true⟩).2)
            ((manualUnlockFlock ["/tmp/nutsdb-test"] ⟨"/tmp/nutsdb-test", true⟩).1) =
          .error Err.ErrDirUnlocked) :=
  ⟨by decide, flock_exclusive [] "/tmp/nutsdb-test" (by decide)⟩

/-- C4: on a fresh store, `get` and `delete` of any key in a never-written
bucket fail with `BucketNotFound`; after one put into the bucket, `get` and
`delete` of a key not present in it fail with `KeyNotFound`. -/
theorem get_delete_not_found (b : String) (k k1 v : Bytes) (h : k ≠ k1) :
    emptyKV.get b k = .error Err.ErrBucketNotFound ∧
      emptyKV.delete b k = .error Err.ErrBucketNotFound ∧
      (emptyKV.put b k1 v Persistent).get b k = .error Err.ErrKeyNotFound ∧
      (emptyKV.put b k1 v Persistent).delete b k = .error Err.ErrKeyNotFound := by
  refine ⟨rfl, rfl, ?_, ?_⟩
  · simp [KVStore.get, KVStore.put, emptyKV, h]
  · simp [KVStore.delete, KVStore.put, emptyKV, h]

/-- Witness for C4 at concrete bucket and keys. -/
theorem get_delete_not_found_witness :
    ([0] : Bytes) ≠ [1] ∧
      (emptyKV.get "test_bucket" [0] = .error Err.ErrBucketNotFound ∧
        emptyKV.delete "test_bucket" [0] = .error Err.ErrBucketNotFound ∧
        (emptyKV.put "test_bucket" [1] [7] Persistent).get "test_bucket" [0] =
          .error Err.ErrKeyNotFound ∧
        (emptyKV.put "test_bucket" [1] [7] Persistent).delete "test_bucket" [0] =
          .error Err.ErrKeyNotFound) :=
  ⟨by decide, get_delete_not_found "test_bucket" [0] [1] [7] (by decide)⟩

/-- C5: committing any transaction resets the commit buffer's length to zero
and leaves its capacity at the configured `commit_buffer_size`; the
transaction's bytes reach the segment log even when its encoded size exceeds
the capacity, in which case the buffer is bypassed. -/
theorem commit_buffer_reset (capacity txSize : Nat) (segLog : List Nat) :
    (commitTx ⟨0, capacity⟩ segLog txSize).1.len = 0 ∧
      (commitTx ⟨0, capacity⟩ segLog txSize).1.cap = capacity ∧
      (commitTx ⟨0, capacity⟩ segLog txSize).2.1 = segLog ++ [txSize] ∧
      (capacity < txSize → (commitTx ⟨0, capacity⟩ segLog txSize).2.2 = false) := by
  unfold commitTx
  by_cases hfit : txSize ≤ capacity
  · simp [hfit]
  · simp [hfit]

/-- Witness for C5: the spec's scenario 6, a 1 KiB buffer and an `Update` of
1000 puts of 1 KiB values (encoded size 1000 × (42 + 58 + 1024) bytes),
which bypasses the buffer and still commits. -/
theorem commit_buffer_reset_witness :
    (commitTx ⟨0, 1024⟩ [] 1124000).1.len = 0 ∧
      (commitTx ⟨0, 1024⟩ [] 1124000).1.cap = 1024 ∧
      (commitTx ⟨0, 1024⟩ [] 1124000).2.1 = [1124000] ∧
      (commitTx ⟨0, 1024⟩ [] 1124000).2.2 = false := by
  have h := commit_buffer_reset 1024 1124000 []
  exact ⟨h.1, h.2.1, h.2.2.1, h.2.2.2 (by decide)⟩

/-- C6: with an error handler configured, a transaction closure returning a
non-nil error invokes the handler exactly once for that failing transaction,
for `View` as well as `Update`; an `Update` closure error also rolls the
store back. -/
theorem error_handler_invoked (db : KVStore) (e e' : String)
    (closureU : KVStore → Except String KVStore) (closureV : KVStore → Except String PUnit)
    (hU : closureU db = .error e) (hV : closureV db = .error e') :
    (runUpdateTx db true closureU).2.2 = 1 ∧
      (runUpdateTx db true closureU).1 = db ∧
      (runViewTx db true closureV).2 = 1 := by
  refine ⟨?_, ?_, ?_⟩ <;> simp [runUpdateTx, runViewTx, hU, hV]

/-- Witness for C6 with the concrete failing closures of the test. -/
theorem error_handler_invoked_witness :
    ((fun _ => Except.error "err happened" : KVStore → Except String KVStore) emptyKV =
        .error "err happened") ∧
      ((runUpdateTx emptyKV true (fun _ => Except.error "err happened")).2.2 = 1 ∧
        (runUpdateTx emptyKV true (fun _ => Except.error "err happened")).1 = emptyKV ∧
        (runViewTx emptyKV true (fun _ => Except.error "err happened")).2 = 1) :=
  ⟨rfl, error_handler_invoked emptyKV "err happened" "err happened"
    (fun _ => Except.error "err happened") (fun _ => Except.error "err happened") rfl rfl⟩

/-- C9: the three modes the claim (with the spec, the iterator and the tests)
names do not exist in `src/options.go`, which declares exactly two
differently-named `EntryIdxMode` constants; the declaration contradicts the
repository's own tests and the iterator that reference the three modes. -/
theorem entry_idx_mode_constants_mismatch :
    claimedEntryIdxModes.length = 3 ∧
      optionsGoEntryIdxModeConstants.length = 2 ∧
      "HintKeyAndRAMIdxMode" ∈ iteratorEntryIdxModeReferences ∧
      "HintKeyValAndRAMIdxMode" ∈ iteratorEntryIdxModeReferences ∧
      "HintBPTSparseIdxMode" ∈ testEntryIdxModeReferences ∧
      "HintKeyAndRAMIdxMode" ∉ optionsGoEntryIdxModeConstants ∧
      "HintKeyValAndRAMIdxMode" ∉ optionsGoEntryIdxModeConstants ∧
      "HintBPTSparseIdxMode" ∉ optionsGoEntryIdxModeConstants := by
  decide

/-! ## Iterator lemmas -/

theorem chainRecords_nil : chainRecords [] = [] := rfl

theorem chainRecords_cons (l : Leaf) (c : List Leaf) :
    chainRecords (l :: c) = l ++ chainRecords c := by
  simp [chainRecords]

theorem chainSize_cons (l : Leaf) (c : List Leaf) :
    chainSize (l :: c) = l.length + chainSize c := by
  simp [chainSize, chainRecords]

theorem skipToLive_none {l : List Record} (h : skipToLive l = none) :
    l.filter (fun r => !r.dead) = [] := by
  induction l with
  | nil => rfl
  | cons x xs ih =>
    by_cases hd : x.dead = true
    · simp only [skipToLive, if_pos hd] at h
      simp [hd, ih h]
    · simp [skipToLive, hd] at h

theorem skipToLive_some {l : List Record} {r : Record} {rem : List Record}
    (h : skipToLive l = some (r, rem)) :
    l.filter (fun s => !s.dead) = r :: rem.filter (fun s => !s.dead) ∧
      rem.length < l.length ∧ r.dead = false ∧ (∀ s ∈ rem, s ∈ l) := by
  induction l with
  | nil => simp [skipToLive] at h
  | cons x xs ih =>
    by_cases hd : x.dead = true
    · simp only [skipToLive, if_pos hd] at h
      obtain ⟨h1, h2, h3, h4⟩ := ih h
      refine ⟨?_, by simp only [List.length_cons]; omega, h3,
        fun s hs => List.mem_cons_of_mem _ (h4 s hs)⟩
      simp [hd, h1]
    · simp only [skipToLive, if_neg hd] at h
      obtain ⟨h1, h2⟩ := Prod.mk.inj (Option.some.inj h)
      subst h1
      subst h2
      refine ⟨?_, by simp only [List.length_cons]; omega, by simpa using hd,
        fun s hs => List.mem_cons_of_mem _ hs⟩
      simp [hd]

theorem measureIter_le (st : IterState) : measureIter st ≤ chainSize st.current := by
  match h : st.current with
  | [] => simp [measureIter, h]
  | leaf :: rest =>
    simp only [measureIter, h, chainSize_cons]
    omega

theorem SetNextF_eq_core (mode : EntryIdxMode) (files : Nat → Nat → Option Bytes)
    (bpt : Option BPTree) (st : IterState) (hcur : st.current ≠ []) (hi : 0 ≤ st.i) :
    SetNextF false mode files bpt st =
      setNextCoreFuel mode files (chainSize st.current + 1) st := by
  have hneg : ¬ st.i = -1 := by omega
  simp [SetNextF, hneg, hcur]

theorem seekLoopIdx_le (key : Bytes) (l : List Record) : seekLoopIdx key l ≤ l.length := by
  induction l with
  | nil => simp [seekLoopIdx]
  | cons r rs ih =>
    by_cases h : compareBytes r.key key < 0
    · simp only [seekLoopIdx, if_pos h, List.length_cons]
      omega
    · simp [seekLoopIdx, if_neg h]

theorem drop_seekLoopIdx (key : Bytes) (l : List Record) :
    l.drop (seekLoopIdx key l) = l.dropWhile (fun r => decide (compareBytes r.key key < 0)) := by
  induction l with
  | nil => rfl
  | cons r rs ih =>
    by_cases h : compareBytes r.key key < 0 <;> simp [seekLoopIdx, List.dropWhile, h, ih]

theorem measureIter_cons (leaf : Leaf) (rest : List Leaf) (i : Int) (e : Option Bytes) :
    measureIter ⟨leaf :: rest, i, e⟩ = (leaf.length - min i.toNat leaf.length) + chainSize rest :=
  rfl

theorem remainingRecords_cons (leaf : Leaf) (rest : List Leaf) (i : Int) (e : Option Bytes) :
    remainingRecords ⟨leaf :: rest, i, e⟩ = leaf.drop i.toNat ++ chainRecords rest :=
  rfl

/-- One `SetNext` body execution from a well-formed cursor either reports
exhaustion as `(false, nil)` when no live record remains, or yields the
first live record, skipping tombstones and expired records, and leaves a
well-formed cursor on the records after it. -/
theorem setNextCore_spec (mode : EntryIdxMode) (files : Nat → Nat → Option Bytes)
    (hmode : mode = EntryIdxMode.HintKeyValAndRAMIdxMode ∨
      mode = EntryIdxMode.HintKeyAndRAMIdxMode) :
    ∀ (fuel : Nat) (st : IterState), st.current ≠ [] →
      (∀ l ∈ st.current, l ≠ []) → 0 ≤ st.i →
      st.i.toNat ≤ st.current.headI.length →
      measureIter st < fuel →
      (mode = EntryIdxMode.HintKeyAndRAMIdxMode →
        ∀ s ∈ remainingRecords st, files s.fileID s.dataPos = some s.value) →
      (skipToLive (remainingRecords st) = none →
        ∃ stE, setNextCoreFuel mode files fuel st = some ((false, none), stE)) ∧
      (∀ r rem, skipToLive (remainingRecords st) = some (r, rem) →
        ∃ st1, setNextCoreFuel mode files fuel st = some ((true, none), st1) ∧
          st1.entry = some r.value ∧ st1.current ≠ [] ∧
          (∀ l ∈ st1.current, l ≠ []) ∧ 0 ≤ st1.i ∧
          st1.i.toNat ≤ st1.current.headI.length ∧
          remainingRecords st1 = rem ∧
          (∀ s ∈ rem, s ∈ remainingRecords st)) := by
  intro fuel
  induction fuel with
  | zero =>
    intro st _ _ _ _ hf _
    exact absurd hf (by omega)
  | succ fuel ih =>
    rintro ⟨cur, i, e⟩ hcur hleaves hi0 hile hf hfiles
    obtain ⟨leaf, rest, rfl⟩ : ∃ leaf rest, cur = leaf :: rest := by
      cases cur with
      | nil => exact absurd rfl hcur
      | cons a b => exact ⟨a, b, rfl⟩
    have hile' : i.toNat ≤ leaf.length := hile
    have hi0' : (0 : Int) ≤ i := hi0
    by_cases hmv : (leaf.length : Int) ≤ i
    · -- the cursor is past the current leaf: advance to the next node
      have hito : i.toNat = leaf.length := by omega
      have hremA : remainingRecords ⟨leaf :: rest, i, e⟩ = chainRecords rest := by
        simp [remainingRecords_cons, hito, List.drop_length]
      cases rest with
      | nil =>
        -- no next node: line 45 returns (false, nil)
        have hstep : setNextCoreFuel mode files (fuel + 1) ⟨[leaf], i, e⟩ =
            some ((false, none), ⟨[], i, e⟩) := by
          simp only [setNextCoreFuel]
          simp [hmv]
        constructor
        · intro _
          exact ⟨⟨[], i, e⟩, hstep⟩
        · intro r rem h
          rw [hremA] at h
          simp [skipToLive, chainRecords] at h
      | cons l2 r2 =>
        have hl2 : l2 ≠ [] := hleaves l2 (by simp)
        obtain ⟨rh, lt2, rfl⟩ := List.exists_cons_of_ne_nil hl2
        have hremA2 : remainingRecords ⟨leaf :: (rh :: lt2) :: r2, i, e⟩ =
            rh :: (lt2 ++ chainRecords r2) := by
          rw [hremA, chainRecords_cons]
          simp
        have hrem1 : ∀ e' : Option Bytes,
            remainingRecords ⟨(rh :: lt2) :: r2, 1, e'⟩ = lt2 ++ chainRecords r2 := by
          intro e'
          simp [remainingRecords_cons]
        by_cases hdead : rh.dead = true
        · -- tombstone or expired: it.SetNext() recursion (line 55)
          have hstepD : setNextCoreFuel mode files (fuel + 1) ⟨leaf :: (rh :: lt2) :: r2, i, e⟩ =
              setNextCoreFuel mode files fuel ⟨(rh :: lt2) :: r2, 1, e⟩ := by
            simp only [setNextCoreFuel]
            simp [hmv, listGetI, hdead]
          have hmeas : measureIter ⟨(rh :: lt2) :: r2, 1, e⟩ < fuel := by
            rw [measureIter_cons] at hf ⊢
            rw [chainSize_cons] at hf
            simp only [List.length_cons] at hf ⊢
            omega
          obtain ⟨ihn, ihs⟩ := ih ⟨(rh :: lt2) :: r2, 1, e⟩ (by simp)
            (fun l hl => hleaves l (List.mem_cons_of_mem _ hl))
            (by show (0 : Int) ≤ 1; omega) (by simp) hmeas
            (fun hm s hs => hfiles hm s (by
              rw [hrem1] at hs
              rw [hremA2]
              exact List.mem_cons_of_mem _ hs))
          have hskip : skipToLive (remainingRecords ⟨leaf :: (rh :: lt2) :: r2, i, e⟩) =
              skipToLive (remainingRecords ⟨(rh :: lt2) :: r2, 1, e⟩) := by
            rw [hremA2, hrem1]
            simp [skipToLive, hdead]
          constructor
          · intro h
            rw [hskip] at h
            obtain ⟨stE, hE⟩ := ihn h
            exact ⟨stE, by rw [hstepD]; exact hE⟩
          · intro r rem h
            rw [hskip] at h
            obtain ⟨st1, h1, h2, h3, h4, h5, h6, h7, h8⟩ := ihs r rem h
            refine ⟨st1, by rw [hstepD]; exact h1, h2, h3, h4, h5, h6, h7, fun s hs => ?_⟩
            have := h8 s hs
            rw [hrem1] at this
            rw [hremA2]
            exact List.mem_cons_of_mem _ this
        · -- live record: yielded as the current entry
          have hstepL : setNextCoreFuel mode files (fuel + 1) ⟨leaf :: (rh :: lt2) :: r2, i, e⟩ =
              some ((true, none), ⟨(rh :: lt2) :: r2, 1, some rh.value⟩) := by
            rcases hmode with rfl | rfl
            · simp only [setNextCoreFuel]
              simp [hmv, listGetI, hdead]
            · have hfe : files rh.fileID rh.dataPos = some rh.value :=
                hfiles rfl rh (by rw [hremA2]; exact List.mem_cons_self _ _)
              simp only [setNextCoreFuel]
              simp [hmv, listGetI, hdead, hfe]
          have hskip : skipToLive (remainingRecords ⟨leaf :: (rh :: lt2) :: r2, i, e⟩) =
              some (rh, lt2 ++ chainRecords r2) := by
            rw [hremA2]
            simp [skipToLive, hdead]
          constructor
          · intro h
            rw [hskip] at h
            exact absurd h (by simp)
          · intro r rem h
            rw [hskip] at h
            obtain ⟨h1, h2⟩ := Prod.mk.inj (Option.some.inj h)
            subst h1
            subst h2
            refine ⟨⟨(rh :: lt2) :: r2, 1, some rh.value⟩, hstepL, rfl, by simp,
              fun l hl => hleaves l (List.mem_cons_of_mem _ hl),
              by show (0 : Int) ≤ 1; omega, by simp,
              hrem1 _, fun s hs => ?_⟩
            rw [hremA2]
            exact List.mem_cons_of_mem _ hs
    · -- the cursor is inside the current leaf
      have hlt : i.toNat < leaf.length := by omega
      obtain ⟨r0, hget0⟩ : ∃ r, leaf.get? i.toNat = some r := by
        rw [List.get?_eq_getElem?]
        exact ⟨_, List.getElem?_eq_getElem hlt⟩
      have hget : listGetI leaf i = some r0 := by
        simp only [listGetI, if_pos hi0']
        exact hget0
      have hdrop : leaf.drop i.toNat = r0 :: leaf.drop (i.toNat + 1) := by
        have h1 : (leaf.drop i.toNat).head? = some r0 := by
          rw [List.head?_drop, ← List.get?_eq_getElem?]
          exact hget0
        have h2 : (leaf.drop i.toNat).tail = leaf.drop (i.toNat + 1) := List.tail_drop leaf i.toNat
        cases hd : leaf.drop i.toNat with
        | nil => rw [hd] at h1; simp at h1
        | cons a as =>
          rw [hd] at h1 h2
          simp only [List.head?_cons, Option.some.injEq] at h1
          simp only [List.tail_cons] at h2
          rw [h1, h2]
      have hremB : remainingRecords ⟨leaf :: rest, i, e⟩ =
          r0 :: (leaf.drop (i.toNat + 1) ++ chainRecords rest) := by
        rw [remainingRecords_cons, hdrop]
        simp
      have hrem1B : ∀ e' : Option Bytes,
          remainingRecords ⟨leaf :: rest, i + 1, e'⟩ =
            leaf.drop (i.toNat + 1) ++ chainRecords rest := by
        intro e'
        have hton : (i + 1).toNat = i.toNat + 1 := by omega
        rw [remainingRecords_cons, hton]
      by_cases hdead : r0.dead = true
      · have hstepD : setNextCoreFuel mode files (fuel + 1) ⟨leaf :: rest, i, e⟩ =
            setNextCoreFuel mode files fuel ⟨leaf :: rest, i + 1, e⟩ := by
          simp only [setNextCoreFuel]
          simp [hmv, hget, hdead]
        have hmeas : measureIter ⟨leaf :: rest, i + 1, e⟩ < fuel := by
          rw [measureIter_cons] at hf ⊢
          omega
        obtain ⟨ihn, ihs⟩ := ih ⟨leaf :: rest, i + 1, e⟩ (by simp) hleaves
          (by show (0 : Int) ≤ i + 1; omega)
          (by show (i + 1).toNat ≤ leaf.length; omega) hmeas
          (fun hm s hs => hfiles hm s (by
            rw [hrem1B] at hs
            rw [hremB]
            exact List.mem_cons_of_mem _ hs))
        have hskip : skipToLive (remainingRecords ⟨leaf :: rest, i, e⟩) =
            skipToLive (remainingRecords ⟨leaf :: rest, i + 1, e⟩) := by
          rw [hremB, hrem1B]
          simp [skipToLive, hdead]
        constructor
        · intro h
          rw [hskip] at h
          obtain ⟨stE, hE⟩ := ihn h
          exact ⟨stE, by rw [hstepD]; exact hE⟩
        · intro r rem h
          rw [hskip] at h
          obtain ⟨st1, h1, h2, h3, h4, h5, h6, h7, h8⟩ := ihs r rem h
          refine ⟨st1, by rw [hstepD]; exact h1, h2, h3, h4, h5, h6, h7, fun s hs => ?_⟩
          have := h8 s hs
          rw [hrem1B] at this
          rw [hremB]
          exact List.mem_cons_of_mem _ this
      · have hstepL : setNextCoreFuel mode files (fuel + 1) ⟨leaf :: rest, i, e⟩ =
            some ((true, none), ⟨leaf :: rest, i + 1, some r0.value⟩) := by
          rcases hmode with rfl | rfl
          · simp only [setNextCoreFuel]
            simp [hmv, hget, hdead]
          · have hfe : files r0.fileID r0.dataPos = some r0.value :=
              hfiles rfl _ (by rw [hremB]; exact List.mem_cons_self _ _)
            simp only [setNextCoreFuel]
            simp [hmv, hget, hdead, hfe]
        have hskip : skipToLive (remainingRecords ⟨leaf :: rest, i, e⟩) =
            some (r0, leaf.drop (i.toNat + 1) ++ chainRecords rest) := by
          rw [hremB]
          simp [skipToLive, hdead]
        constructor
        · intro h
          rw [hskip] at h
          exact absurd h (by simp)
        · intro r rem h
          rw [hskip] at h
          obtain ⟨h1, h2⟩ := Prod.mk.inj (Option.some.inj h)
          subst h1
          subst h2
          refine ⟨⟨leaf :: rest, i + 1, some r0.value⟩, hstepL, rfl,
            by simp, hleaves, by show (0 : Int) ≤ i + 1; omega,
            by show (i + 1).toNat ≤ leaf.length; omega,
            hrem1B _, fun s hs => ?_⟩
          rw [hremB]
          exact List.mem_cons_of_mem _ hs

/-- Iterating `SetNext` to exhaustion from a well-formed cursor yields
exactly the values of the live not-yet-consumed records, in order. -/
theorem runIter_spec (mode : EntryIdxMode) (files : Nat → Nat → Option Bytes)
    (bpt : Option BPTree)
    (hmode : mode = EntryIdxMode.HintKeyValAndRAMIdxMode ∨
      mode = EntryIdxMode.HintKeyAndRAMIdxMode) :
    ∀ (fuel : Nat) (st : IterState), st.current ≠ [] →
      (∀ l ∈ st.current, l ≠ []) → 0 ≤ st.i →
      st.i.toNat ≤ st.current.headI.length →
      (mode = EntryIdxMode.HintKeyAndRAMIdxMode →
        ∀ s ∈ remainingRecords st, files s.fileID s.dataPos = some s.value) →
      (remainingRecords st).length < fuel →
      runIter false mode files bpt fuel st =
        some (((remainingRecords st).filter (fun r => !r.dead)).map Record.value) := by
  intro fuel
  induction fuel with
  | zero =>
    intro st _ _ _ _ _ hlen
    exact absurd hlen (by omega)
  | succ fuel ih =>
    intro st hcur hleaves hi0 hile hfiles hlen
    have hsn : SetNextF false mode files bpt st =
        setNextCoreFuel mode files (chainSize st.current + 1) st :=
      SetNextF_eq_core mode files bpt st hcur hi0
    have hmeas : measureIter st < chainSize st.current + 1 := by
      have := measureIter_le st
      omega
    obtain ⟨cn, cs⟩ := setNextCore_spec mode files hmode (chainSize st.current + 1) st hcur
      hleaves hi0 hile hmeas hfiles
    cases hskip : skipToLive (remainingRecords st) with
    | none =>
      obtain ⟨stE, hE⟩ := cn hskip
      rw [skipToLive_none hskip]
      simp only [runIter]
      rw [hsn, hE]
      simp
    | some pr =>
      obtain ⟨r, rem⟩ := pr
      obtain ⟨st1, h1, h2, h3, h4, h5, h6, h7, h8⟩ := cs r rem hskip
      obtain ⟨hfilt, hlen1, hlive, hmem⟩ := skipToLive_some hskip
      have ihr := ih st1 h3 h4 h5 h6
        (fun hm s hs => hfiles hm s (h8 s (h7 ▸ hs)))
        (by rw [h7]; omega)
      simp only [runIter]
      rw [hsn, h1]
      simp only [h2]
      rw [ihr, h7, hfilt]
      simp

/-- The `FindLeaf` model lands on the chain suffix from which everything
smaller than the key has effectively been dropped. -/
theorem findLeafChain_drop (key : Bytes) :
    ∀ (c : List Leaf), (∀ l ∈ c, l ≠ []) → List.Pairwise keyLt (chainRecords c) → c ≠ [] →
      ∃ l1 rest1, findLeafChain c key = l1 :: rest1 ∧
        (∀ l ∈ l1 :: rest1, l ∈ c) ∧
        l1.dropWhile (fun r => decide (compareBytes r.key key < 0)) ++ chainRecords rest1 =
          (chainRecords c).dropWhile (fun r => decide (compareBytes r.key key < 0)) := by
  intro c
  induction c with
  | nil =>
    intro _ _ h
    exact absurd rfl h
  | cons l c ih =>
    intro hl hp _
    cases c with
    | nil =>
      refine ⟨l, [], rfl, by simp, ?_⟩
      simp [chainRecords]
    | cons l2 r2 =>
      have hlne : l ≠ [] := hl l (by simp)
      have hllast := List.getLast?_eq_getLast l hlne
      have hpl := List.pairwise_append.mp (by rw [chainRecords_cons] at hp; exact hp)
      by_cases hcmp : 0 ≤ compareBytes (l.getLast hlne).key key
      · -- this leaf's last key is at or past the target: FindLeaf stops here
        refine ⟨l, l2 :: r2, ?_, fun x hx => hx, ?_⟩
        · rw [findLeafChain, hllast]
          simp only [if_pos hcmp]
        · have hdw : l.dropWhile (fun r => decide (compareBytes r.key key < 0)) ≠ [] := by
            rw [ne_eq, List.dropWhile_eq_nil_iff]
            push_neg
            refine ⟨l.getLast hlne, List.getLast_mem hlne, ?_⟩
            have hng : ¬ compareBytes (l.getLast hlne).key key < 0 := by omega
            simpa using hng
          rw [show chainRecords (l :: l2 :: r2) = l ++ chainRecords (l2 :: r2) from
            chainRecords_cons _ _]
          rw [List.dropWhile_append]
          have hie : (l.dropWhile (fun r => decide (compareBytes r.key key < 0))).isEmpty = false := by
            simp [List.isEmpty_iff, hdw]
          rw [hie]
          simp
      · -- every key of this leaf is below the target: FindLeaf moves right
        have hrlk : compareBytes (l.getLast hlne).key key < 0 := by omega
        have hpred : ∀ x ∈ l, compareBytes x.key key < 0 := by
          intro x hx
          have hsplit : l.dropLast ++ [l.getLast hlne] = l := List.dropLast_append_getLast hlne
          rw [← hsplit] at hx
          rcases List.mem_append.mp hx with hx1 | hx2
          · have hplx : List.Pairwise keyLt (l.dropLast ++ [l.getLast hlne]) := by
              rw [hsplit]
              exact hpl.1
            have := (List.pairwise_append.mp hplx).2.2 x hx1 (l.getLast hlne) (by simp)
            exact compareBytes_lt_trans this hrlk
          · simp only [List.mem_singleton] at hx2
            rw [hx2]
            exact hrlk
        obtain ⟨l1, rest1, hfl, hmem, heq⟩ :=
          ih (fun x hx => hl x (List.mem_cons_of_mem _ hx)) hpl.2.1 (by simp)
        refine ⟨l1, rest1, ?_, fun x hx => List.mem_cons_of_mem _ (hmem x hx), ?_⟩
        · rw [findLeafChain, hllast]
          simp only [if_neg hcmp]
          exact hfl
        · rw [heq]
          rw [show chainRecords (l :: l2 :: r2) = l ++ chainRecords (l2 :: r2) from
            chainRecords_cons _ _]
          rw [List.dropWhile_append]
          have hie : (l.dropWhile (fun r => decide (compareBytes r.key key < 0))).isEmpty = true := by
            rw [List.isEmpty_iff, List.dropWhile_eq_nil_iff]
            intro x hx
            simpa using hpred x hx
          rw [hie]
          simp

/-- `Seek` from any state lands on a well-formed cursor whose remaining
records are the stored records with key at or past the target. -/
theorem SeekF_spec (t : BPTree) (key : Bytes) (st : IterState)
    (hl : ∀ l ∈ t.leaves, l ≠ []) (hp : List.Pairwise keyLt (chainRecords t.leaves))
    (hne : t.leaves ≠ []) :
    ∃ st1, SeekF t st key = some st1 ∧ st1.current ≠ [] ∧
      (∀ l ∈ st1.current, l ≠ []) ∧ 0 ≤ st1.i ∧
      st1.i.toNat ≤ st1.current.headI.length ∧ st1.entry = st.entry ∧
      remainingRecords st1 =
        (chainRecords t.leaves).dropWhile (fun r => decide (compareBytes r.key key < 0)) ∧
      (∀ s ∈ remainingRecords st1, s ∈ chainRecords t.leaves) := by
  obtain ⟨l1, rest1, hfl, hmem, heq⟩ := findLeafChain_drop key t.leaves hl hp hne
  have hremeq : remainingRecords ⟨l1 :: rest1, ((seekLoopIdx key l1 : Nat) : Int), st.entry⟩ =
      (chainRecords t.leaves).dropWhile (fun r => decide (compareBytes r.key key < 0)) := by
    rw [remainingRecords_cons]
    rw [Int.toNat_ofNat]
    rw [drop_seekLoopIdx]
    exact heq
  refine ⟨⟨l1 :: rest1, ((seekLoopIdx key l1 : Nat) : Int), st.entry⟩, ?_, by simp,
    fun l hl2 => hl l (hmem l hl2),
    by show (0 : Int) ≤ ((seekLoopIdx key l1 : Nat) : Int); omega, ?_, rfl, hremeq, ?_⟩
  · simp only [SeekF, BPTree.FindLeaf, hfl]
  · show ((seekLoopIdx key l1 : Nat) : Int).toNat ≤ l1.length
    rw [Int.toNat_ofNat]
    exact seekLoopIdx_le key l1
  · intro s hs
    rw [hremeq] at hs
    exact (List.dropWhile_sublist _).subset hs

theorem dropWhile_cons_prop {α : Type} {p : α → Bool} {l : List α} {r : α} {tl : List α}
    (h : l.dropWhile p = r :: tl) : p r = false := by
  induction l with
  | nil => simp at h
  | cons a as ih =>
    rw [List.dropWhile_cons] at h
    by_cases hp : p a
    · rw [if_pos hp] at h
      exact ih h
    · rw [if_neg hp] at h
      injection h with h1 h2
      rw [← h1]
      simpa using hp

theorem dropWhile_firstKey (t : BPTree) :
    (chainRecords t.leaves).dropWhile
        (fun r => decide (compareBytes r.key t.FirstKey < 0)) = chainRecords t.leaves := by
  cases hc : chainRecords t.leaves with
  | nil => rfl
  | cons r1 rs =>
    have hfk : t.FirstKey = r1.key := by simp [BPTree.FirstKey, hc]
    rw [List.dropWhile_cons, hfk]
    simp [compareBytes_self]

/-- C7: iterating `SetNext` on a bucket over a well-formed B+Tree index
yields, in ascending key order, exactly the entries of the live records
(every delete-flagged or expired record is skipped transparently and never
returned as the current entry), and the call after the last yield returns
(false, nil).  Holds in both RAM index modes; in `HintKeyAndRAMIdxMode` the
data-file reads must deliver the records' entries. -/
theorem iterator_yields_sorted_live (t : BPTree) (mode : EntryIdxMode)
    (files : Nat → Nat → Option Bytes)
    (hwf : WFChain t.leaves) (hne : t.leaves ≠ [])
    (hmf : mode = EntryIdxMode.HintKeyValAndRAMIdxMode ∨
      (mode = EntryIdxMode.HintKeyAndRAMIdxMode ∧
        ∀ r ∈ chainRecords t.leaves, files r.fileID r.dataPos = some r.value)) :
    iterate t mode files = some ((liveRecords t.leaves).map Record.value) ∧
      List.Pairwise keyLt (liveRecords t.leaves) ∧
      ∀ r ∈ liveRecords t.leaves, r.dead = false := by
  obtain ⟨hl, hp⟩ := hwf
  have hmode : mode = EntryIdxMode.HintKeyValAndRAMIdxMode ∨
      mode = EntryIdxMode.HintKeyAndRAMIdxMode := hmf.imp id And.left
  have hfilesC : mode = EntryIdxMode.HintKeyAndRAMIdxMode →
      ∀ s ∈ chainRecords t.leaves, files s.fileID s.dataPos = some s.value := by
    rcases hmf with rfl | ⟨rfl, hf⟩
    · intro hm
      simp at hm
    · intro _
      exact hf
  obtain ⟨st1, hseek, hc1, hl1, hi1, hile1, hent1, hrem1, hmemc⟩ :=
    SeekF_spec t t.FirstKey newIterState hl hp hne
  rw [dropWhile_firstKey] at hrem1
  have hsn0 : SetNextF false mode files (some t) newIterState =
      setNextCoreFuel mode files (chainSize st1.current + 1) st1 := by
    have hseek' := hseek
    simp only [newIterState] at hseek'
    rcases hmode with rfl | rfl
    · simp only [SetNextF, newIterState]
      simp [hseek']
    · simp only [SetNextF, newIterState]
      simp [hseek']
  have hsn1 : SetNextF false mode files (some t) st1 =
      setNextCoreFuel mode files (chainSize st1.current + 1) st1 :=
    SetNextF_eq_core mode files (some t) st1 hc1 hi1
  have hcongr : runIter false mode files (some t) (chainSize t.leaves + 1) newIterState =
      runIter false mode files (some t) (chainSize t.leaves + 1) st1 := by
    simp only [runIter]
    rw [hsn0, hsn1]
  have hrun := runIter_spec mode files (some t) hmode (chainSize t.leaves + 1) st1 hc1 hl1 hi1
    hile1 (fun hm s hs => hfilesC hm s (hmemc s hs))
    (by rw [hrem1]; show (chainRecords t.leaves).length < (chainRecords t.leaves).length + 1
        omega)
  refine ⟨?_, hp.sublist (List.filter_sublist _),
    fun r hr => by simpa using List.of_mem_filter hr⟩
  show runIter false mode files (some t) (chainSize t.leaves + 1) newIterState =
    some ((liveRecords t.leaves).map Record.value)
  rw [hcongr, hrun, hrem1]
  rfl

/-- Witness for C7 on a concrete two-leaf tree containing a tombstone and an
expired record. -/
theorem iterator_yields_sorted_live_witness :
    (WFChain sampleTree.leaves ∧ sampleTree.leaves ≠ []) ∧
      (iterate sampleTree EntryIdxMode.HintKeyValAndRAMIdxMode (fun _ _ => none) =
          some ((liveRecords sampleTree.leaves).map Record.value) ∧
        List.Pairwise keyLt (liveRecords sampleTree.leaves) ∧
        ∀ r ∈ liveRecords sampleTree.leaves, r.dead = false) :=
  ⟨⟨by decide, by decide⟩,
    iterator_yields_sorted_live sampleTree EntryIdxMode.HintKeyValAndRAMIdxMode
      (fun _ _ => none) (by decide) (by decide) (Or.inl rfl)⟩

/-- C8, amended: when the bucket's index holds at least one key at or past
the input key, `Seek(key)` positions the cursor at the smallest stored key
that is greater than or equal to the input key, and provided the record at
that key is neither delete-flagged nor expired, the next `SetNext` yields
that key's entry.  (The liveness proviso is forced: tombstones remain
stored in the index and `SetNext` skips them, see the counterexample
below.) -/
theorem seek_then_next_smallest_geq (t : BPTree) (key : Bytes) (mode : EntryIdxMode)
    (files : Nat → Nat → Option Bytes)
    (hwf : WFChain t.leaves) (hne : t.leaves ≠ [])
    (hmf : mode = EntryIdxMode.HintKeyValAndRAMIdxMode ∨
      (mode = EntryIdxMode.HintKeyAndRAMIdxMode ∧
        ∀ r ∈ chainRecords t.leaves, files r.fileID r.dataPos = some r.value))
    (r0 : Record)
    (hfind : ((chainRecords t.leaves).dropWhile
        (fun r => decide (compareBytes r.key key < 0))).head? = some r0)
    (hlive : r0.dead = false) :
    ∃ st1 st2, SeekF t newIterState key = some st1 ∧
      SetNextF false mode files (some t) st1 = some ((true, none), st2) ∧
      st2.entry = some r0.value ∧
      r0 ∈ chainRecords t.leaves ∧
      0 ≤ compareBytes r0.key key ∧
      ∀ s ∈ chainRecords t.leaves, 0 ≤ compareBytes s.key key →
        compareBytes r0.key s.key ≤ 0 := by
  obtain ⟨hl, hp⟩ := hwf
  have hmode : mode = EntryIdxMode.HintKeyValAndRAMIdxMode ∨
      mode = EntryIdxMode.HintKeyAndRAMIdxMode := hmf.imp id And.left
  have hfilesC : mode = EntryIdxMode.HintKeyAndRAMIdxMode →
      ∀ s ∈ chainRecords t.leaves, files s.fileID s.dataPos = some s.value := by
    rcases hmf with rfl | ⟨rfl, hf⟩
    · intro hm
      simp at hm
    · intro _
      exact hf
  obtain ⟨st1, hseek, hc1, hl1, hi1, hile1, hent1, hrem1, hmemc⟩ :=
    SeekF_spec t key newIterState hl hp hne
  obtain ⟨tail, htail⟩ : ∃ tail, (chainRecords t.leaves).dropWhile
      (fun r => decide (compareBytes r.key key < 0)) = r0 :: tail := by
    cases hd : (chainRecords t.leaves).dropWhile
        (fun r => decide (compareBytes r.key key < 0)) with
    | nil =>
      rw [hd] at hfind
      simp at hfind
    | cons a as =>
      rw [hd] at hfind
      simp only [List.head?_cons, Option.some.injEq] at hfind
      exact ⟨as, by rw [hfind]⟩
  have hskip : skipToLive (remainingRecords st1) = some (r0, tail) := by
    rw [hrem1, htail]
    simp [skipToLive, hlive]
  have hsn1 : SetNextF false mode files (some t) st1 =
      setNextCoreFuel mode files (chainSize st1.current + 1) st1 :=
    SetNextF_eq_core mode files (some t) st1 hc1 hi1
  have hmeas : measureIter st1 < chainSize st1.current + 1 := by
    have := measureIter_le st1
    omega
  obtain ⟨cn, cs⟩ := setNextCore_spec mode files hmode (chainSize st1.current + 1) st1 hc1
    hl1 hi1 hile1 hmeas (fun hm s hs => hfilesC hm s (hmemc s hs))
  obtain ⟨st2, h1, h2, _⟩ := cs r0 tail hskip
  have hr0mem : r0 ∈ chainRecords t.leaves := by
    refine hmemc r0 ?_
    rw [hrem1, htail]
    exact List.mem_cons_self _ _
  have hr0ge : 0 ≤ compareBytes r0.key key := by
    have := dropWhile_cons_prop htail
    simp only [decide_eq_false_iff_not] at this
    omega
  refine ⟨st1, st2, hseek, by rw [hsn1]; exact h1, h2, hr0mem, hr0ge, ?_⟩
  intro s hs hge
  have hsplit := List.takeWhile_append_dropWhile
    (p := fun r => decide (compareBytes r.key key < 0)) (l := chainRecords t.leaves)
  rw [← hsplit] at hs
  rcases List.mem_append.mp hs with h1m | h2m
  · have := List.mem_takeWhile_imp h1m
    simp only [decide_eq_true_eq] at this
    omega
  · rw [htail] at h2m
    rcases List.mem_cons.mp h2m with rfl | h3m
    · simp [compareBytes_self]
    · have hpdw : List.Pairwise keyLt ((chainRecords t.leaves).dropWhile
          (fun r => decide (compareBytes r.key key < 0))) :=
        hp.sublist (List.dropWhile_sublist _)
      rw [htail] at hpdw
      have hlt := (List.pairwise_cons.mp hpdw).1 s h3m
      exact le_of_lt hlt

/-- Counterexample for C8 as stated: in the sample tree the smallest stored
key at or past [2] is sampleRecord2's own key [2] (head of the dropWhile,
member of the index, ≥ [2], and minimal among the stored keys ≥ [2]), but
that record is delete-flagged, so the `SetNext` following `Seek([2])`
yields the entry [30] of key [3] instead of sampleRecord2's entry [20]. -/
theorem seek_then_next_tombstone_counterexample :
    ((chainRecords sampleTree.leaves).dropWhile
        (fun r => decide (compareBytes r.key [2] < 0))).head? = some sampleRecord2 ∧
      sampleRecord2 ∈ chainRecords sampleTree.leaves ∧
      0 ≤ compareBytes sampleRecord2.key [2] ∧
      ((chainRecords sampleTree.leaves).all
        (fun s => decide (compareBytes s.key [2] < 0) ||
          decide (compareBytes sampleRecord2.key s.key ≤ 0))) = true ∧
      sampleRecord2.dead = true ∧
      ((SeekF sampleTree newIterState [2]).bind (fun st1 =>
        (SetNextF false EntryIdxMode.HintKeyValAndRAMIdxMode (fun _ _ => none)
          (some sampleTree) st1).map (fun r => r.2.entry))) = some (some [30]) ∧
      sampleRecord2.value = [20] := by
  decide

/-- Witness for the amended C8: seeking key 3 in the sample tree yields the
record with key 3, the smallest stored key at or past the input, whose
record is live. -/
theorem seek_then_next_smallest_geq_witness :
    (WFChain sampleTree.leaves ∧ sampleTree.leaves ≠ [] ∧
      ((chainRecords sampleTree.leaves).dropWhile
          (fun r => decide (compareBytes r.key [3] < 0))).head? = some sampleRecord3 ∧
      sampleRecord3.dead = false) ∧
      (∃ st1 st2, SeekF sampleTree newIterState [3] = some st1 ∧
        SetNextF false EntryIdxMode.HintKeyValAndRAMIdxMode (fun _ _ => none)
          (some sampleTree) st1 = some ((true, none), st2) ∧
        st2.entry = some sampleRecord3.value ∧
        sampleRecord3 ∈ chainRecords sampleTree.leaves ∧
        0 ≤ compareBytes sampleRecord3.key [3] ∧
        ∀ s ∈ chainRecords sampleTree.leaves, 0 ≤ compareBytes s.key [3] →
          compareBytes sampleRecord3.key s.key ≤ 0) :=
  ⟨⟨by decide, by decide, by decide, by decide⟩,
    seek_then_next_smallest_geq sampleTree [3] EntryIdxMode.HintKeyValAndRAMIdxMode
      (fun _ _ => none) (by decide) (by decide) (Or.inl rfl) sampleRecord3
      (by decide) (by decide)⟩

/-- C10: when `FindLeaf` returns nil (empty bucket index), `Seek` does not
leave the iterator safely exhausted: after storing i = -1 it re-enters the
`for` loop, resets i to 0 and dereferences the nil node — a nil-pointer
panic, modelled as `none`.  A `SetNext` whose initial positioning seeks into
such an index panics the same way. -/
theorem seek_nil_leaf_panics :
    BPTree.FindLeaf ⟨[]⟩ [107] = [] ∧
      SeekF ⟨[]⟩ newIterState [107] = none ∧
      SetNextF false EntryIdxMode.HintKeyValAndRAMIdxMode (fun _ _ => none) (some ⟨[]⟩)
        newIterState = none := by
  decide

end NutsDB
